import Mathlib

/-!
Verification of the calendar layout engine in `src/my_calendar.py`
(`CalendarSVGGenerator`): the date-window builder (`get_week_range`,
`get_four_week_range`), the event loader (`load_events_from_json`,
`remove_duplicate_events`) and the lane/position layout engine
(`calculate_event_layout`), together with theorems settling the frozen
claims about them.

Calendar dates are modelled as proleptic-Gregorian ordinals (`Int`),
exactly `datetime.date.toordinal()` in Python: day 1 is 0001-01-01, a
Monday.  Int arithmetic with `timedelta(days=k)` is ordinal addition.
-/

namespace Calendar

/-- `target_date.weekday()` (Monday = 0 … Sunday = 6).  For an ordinal `d`
this is `(d - 1) % 7`; Python's `%` with a positive modulus agrees with
`Int.emod`. -/
def pyWeekday (d : Int) : Int := (d - 1) % 7

/-- The list of consecutive dates `lo, lo+1, …, hi` (empty when `hi < lo`).
Helper for stating facts about the date lists the source builds with loops. -/
def dateRange (lo hi : Int) : List Int :=
  (List.range (hi + 1 - lo).toNat).map (fun (i : Nat) => lo + (i : Int))

/-- `get_week_range` (src/my_calendar.py lines 19-27): the Monday-to-Sunday
week containing `target`: `monday = target - timedelta(days=target.weekday())`,
then the seven days `monday + i` for `i = 0 … 6`. -/
def get_week_range (target : Int) : List Int :=
  (List.range 7).map (fun (i : Nat) => (target - pyWeekday target) + (i : Int))

/-- `get_four_week_range` (lines 29-42): the week before the reference date's
week, the reference date's week, and the two following weeks, each computed by
`get_week_range` from `current_week[0] + 7k`.  (The Python function also
returns `today` unchanged as a second component; that echo is omitted.) -/
def get_four_week_range (today : Int) : List (List Int) :=
  let current := get_week_range today
  let c0 := current.headD 0
  [get_week_range (c0 - 7), current, get_week_range (c0 + 7), get_week_range (c0 + 14)]

/-- One loaded event record (lines 64-69): `member` is the record's `name`
field, `description` its `title` field. -/
structure Event where
  member : String
  description : String
  start_date : Int
  end_date : Int
deriving DecidableEq, Repr

/-! ## Timestamp parsing

Lines 61-62 run `datetime.fromisoformat(s[:-1]).date()`: the final character
of the raw string is removed unconditionally, the remainder is parsed, and the
parsed value's own calendar date is kept (time-of-day dropped). -/

def digitVal (c : Char) : Option Nat :=
  if c.isDigit then some (c.toNat - 48) else none

/-- Parse exactly `n` decimal digits (most significant first). -/
def parseFixed : Nat → Nat → List Char → Option (Nat × List Char)
  | 0, acc, cs => some (acc, cs)
  | _ + 1, _, [] => none
  | n + 1, acc, c :: cs =>
    match digitVal c with
    | some d => parseFixed n (acc * 10 + d) cs
    | none => none

def isLeapYear (y : Nat) : Bool :=
  y % 4 == 0 && (y % 100 != 0 || y % 400 == 0)

def daysInMonth (y m : Nat) : Nat :=
  if m = 2 then (if isLeapYear y then 29 else 28)
  else if m = 4 ∨ m = 6 ∨ m = 9 ∨ m = 11 then 30
  else 31

def daysBeforeMonth (y m : Nat) : Nat :=
  ((List.range (m - 1)).map (fun i => daysInMonth y (i + 1))).foldl (· + ·) 0

/-- `datetime.date(y, m, d).toordinal()`: days since 0001-01-00 in the
proleptic Gregorian calendar. -/
def toOrdinal (y m d : Nat) : Int :=
  ((365 * (y - 1) + (y - 1) / 4 + (y - 1) / 400 + daysBeforeMonth y m + d : Nat) : Int)
    - (((y - 1) / 100 : Nat) : Int)

/-- One or more fractional-second digits (the leading `.` or `,` already
consumed); returns the remainder. -/
def parseFraction (cs : List Char) : Option (List Char) :=
  let digs := cs.takeWhile (fun c => c.isDigit)
  if digs.isEmpty then none else some (cs.drop digs.length)

def validTime (h m s : Nat) : Bool := h ≤ 23 && m ≤ 59 && s ≤ 59

/-- Time of day `HH[:MM[:SS[.ffff…]]]`; returns the remainder after the time. -/
def parseTime (cs : List Char) : Option (List Char) := do
  let (h, cs1) ← parseFixed 2 0 cs
  match cs1 with
  | ':' :: cs2 => do
    let (m, cs3) ← parseFixed 2 0 cs2
    match cs3 with
    | ':' :: cs4 => do
      let (s, cs5) ← parseFixed 2 0 cs4
      match cs5 with
      | '.' :: cs6 => do
        let cs7 ← parseFraction cs6
        if validTime h m s then some cs7 else none
      | ',' :: cs6 => do
        let cs7 ← parseFraction cs6
        if validTime h m s then some cs7 else none
      | _ => if validTime h m s then some cs5 else none
    | _ => if validTime h m 0 then some cs3 else none
  | _ => if validTime h 0 0 then some cs else none

/-- A numeric UTC-offset tail `HH[:MM[:SS]]` (the sign already consumed). -/
def parseOffsetTail (cs : List Char) : Option (List Char) := do
  let (h, cs1) ← parseFixed 2 0 cs
  match cs1 with
  | ':' :: cs2 => do
    let (m, cs3) ← parseFixed 2 0 cs2
    match cs3 with
    | ':' :: cs4 => do
      let (s, cs5) ← parseFixed 2 0 cs4
      if validTime h m s then some cs5 else none
    | _ => if h ≤ 23 && m ≤ 59 then some cs3 else none
  | _ => if h ≤ 23 then some cs1 else none

/-- Trailing zone designator: absent, a literal `Z`/`z`, or `±HH[:MM[:SS]]`. -/
def parseTZ : List Char → Option (List Char)
  | [] => some []
  | 'Z' :: cs => some cs
  | 'z' :: cs => some cs
  | '+' :: cs => parseOffsetTail cs
  | '-' :: cs => parseOffsetTail cs
  | _ => none

/-- Models CPython's `datetime.fromisoformat(s).date()` on the extended-format
ISO-8601 shapes this repository's data can produce: `YYYY-MM-DD` (two-digit
month and day mandatory), optionally followed by a single separator character
and a time `HH[:MM[:SS[.ffff…]]]`, optionally followed by `Z`/`z` or a numeric
offset `±HH[:MM[:SS]]`.  Returns the ordinal of the calendar date literally
written in the string (`datetime.date()` keeps the parsed date components and
drops time-of-day and any offset), or `none` where CPython raises
`ValueError`.  Basic (separator-free) dates and offsets and fractional offsets
are omitted from the model: no input form used here produces them, and they
parse to the same dates where accepted. -/
def fromisoformatDate (s : String) : Option Int := do
  let (y, cs1) ← parseFixed 4 0 s.toList
  match cs1 with
  | '-' :: cs2 => do
    let (m, cs3) ← parseFixed 2 0 cs2
    match cs3 with
    | '-' :: cs4 => do
      let (d, cs5) ← parseFixed 2 0 cs4
      if 1 ≤ y && 1 ≤ m && m ≤ 12 && 1 ≤ d && d ≤ daysInMonth y m then
        match cs5 with
        | [] => some (toOrdinal y m d)
        | _ :: cs6 => do
          let rest ← parseTime cs6
          let rest2 ← parseTZ rest
          match rest2 with
          | [] => some (toOrdinal y m d)
          | _ => none
      else none
    | _ => none
  | _ => none

/-- Lines 61-62: `datetime.fromisoformat(raw[:-1]).date()` — the last character
of the raw timestamp string is stripped unconditionally before parsing. -/
def parse_ts (s : String) : Option Int := fromisoformatDate (s.dropRight 1)

/-! ## Event loading -/

/-- One raw JSON record as the loader reads it (lines 54-57): `row.get(key)`
is `none` when the key is missing.  `rawStart`/`rawEnd`/`rawName`/`rawTitle`
are the `start`/`end`/`name`/`title` fields. -/
structure RawRecord where
  rawStart : Option String
  rawEnd : Option String
  rawName : Option String
  rawTitle : Option String
deriving DecidableEq, Repr

/-- Python truthiness of `row.get(key)` in the line-59 guard: `None` and the
empty string are falsy. -/
def truthy : Option String → Bool
  | none => false
  | some s => !s.isEmpty

/-- The line-59 guard: `if start_date_str and end_date_str and member and description`. -/
def fieldsPresent (r : RawRecord) : Bool :=
  truthy r.rawStart && truthy r.rawEnd && truthy r.rawName && truthy r.rawTitle

/-- The record loop of lines 52-70, which runs inside the single `try` of
line 48: records whose four fields are not all present-and-truthy are skipped
individually, but a `ValueError` raised by `fromisoformat` on any record
escapes the loop and is caught by the `except` of line 74, discarding all
work (`none`). -/
def loadRaw : List RawRecord → Option (List Event)
  | [] => some []
  | r :: rest =>
    if fieldsPresent r then
      match parse_ts (r.rawStart.getD ""), parse_ts (r.rawEnd.getD "") with
      | some s, some e =>
        (loadRaw rest).map (fun tl => ⟨r.rawName.getD "", r.rawTitle.getD "", s, e⟩ :: tl)
      | _, _ => none
    else loadRaw rest

abbrev EventKey := String × Int × Int

/-- The dict key of line 85: `(event['member'], event['start_date'], event['end_date'])`. -/
def eventKey (e : Event) : EventKey := (e.member, e.start_date, e.end_date)

/-- Assignment into a Python dict modelled on an association list: an existing
key keeps its position and gets the new value; a new key is appended. -/
def dictInsert : List (EventKey × Event) → EventKey → Event → List (EventKey × Event)
  | [], k, v => [(k, v)]
  | (k', v') :: rest, k, v =>
    if k' = k then (k', v) :: rest else (k', v') :: dictInsert rest k v

/-- `remove_duplicate_events` (lines 82-88): fill a dict keyed by
`(member, start_date, end_date)` — later records overwrite earlier ones with
the same key — and return its values in insertion order. -/
def remove_duplicate_events (events : List Event) : List Event :=
  (events.foldl (fun d e => dictInsert d (eventKey e) e) []).map Prod.snd

/-- `load_events_from_json` (lines 44-80) restricted to its record-processing
logic: when the loop raises, the `except` clause returns before `self.events`
is assigned, so the loaded list stays empty; otherwise the parsed records are
deduplicated and stored.  (File I/O and the member-colour bookkeeping of
lines 79-80 are outside the verified scope.) -/
def load_events_from_json (data : List RawRecord) : List Event :=
  match loadRaw data with
  | none => []
  | some raws => remove_duplicate_events raws

/-! ## Layout engine -/

/-- `get_events_for_date_range` (lines 101-103). -/
def get_events_for_date_range (events : List Event) (s e : Int) : List Event :=
  events.filter (fun ev => !(decide (ev.end_date < s) || decide (ev.start_date > e)))

/-- The `event_dates` loop of lines 120-124: every day of the event clipped to
the window `[winS, winE]`. -/
def eventDates (ev : Event) (winS winE : Int) : List Int :=
  dateRange (max ev.start_date winS) (min ev.end_date winE)

/-- Reading `date_event_positions[date][p]`: `none` beyond the list's length. -/
def getPos (l : List (Option Event)) (p : Nat) : Option Event := l.getD p none

/-- The `can_place` test of lines 128-132, negated: position `p` is blocked
when on some covered date the occupancy list is long enough and holds an event
at index `p`. -/
def blockedAt (occ : Int → List (Option Event)) (dates : List Int) (p : Nat) : Bool :=
  dates.any (fun d => decide (p < (occ d).length) && ((occ d).getD p none).isSome)

/-- Linear search for the first `n ≥ start` with `P n = false`, with explicit
fuel (returns `start + fuel` when the fuel runs out). -/
def leastNot (P : Nat → Bool) : Nat → Nat → Nat
  | 0, start => start
  | fuel + 1, start => if P start then leastNot P fuel (start + 1) else start

def maxOccLen (occ : Int → List (Option Event)) (dates : List Int) : Nat :=
  (dates.map (fun d => (occ d).length)).foldr max 0

/-- The `while True` search of lines 126-142 stops at the first non-blocked
position.  Any position beyond every occupancy list's length is free, so the
bounded search with fuel `maxOccLen + 1` reaches it; the `leastNot` lemmas
below show the result is exactly the least non-blocked position. -/
def findPosition (occ : Int → List (Option Event)) (dates : List Int) : Nat :=
  leastNot (blockedAt occ dates) (maxOccLen occ dates + 1) 0

/-- Lines 135-138: pad `date_event_positions[date]` with `None` until it is
long enough, then store the event at index `p`. -/
def setPos : List (Option Event) → Nat → Event → List (Option Event)
  | [], 0, e => [some e]
  | [], p + 1, e => none :: setPos [] p e
  | _ :: xs, 0, e => some e :: xs
  | x :: xs, p + 1, e => x :: setPos xs p e

def placeEvent (occ : Int → List (Option Event)) (dates : List Int) (p : Nat)
    (e : Event) : Int → List (Option Event) :=
  fun d => if d ∈ dates then setPos (occ d) p e else occ d

/-- The state of `calculate_event_layout`: `occ` is `date_event_positions`
(total over `Int`; the Python dict's keys are exactly the window dates, and
only window dates are ever accessed because the clipped `event_dates` lie
inside the window, which is one contiguous run of days in every caller);
`positions` records the successive `event['layout_position'] = position`
assignments of line 139 in processing order. -/
structure Layout where
  occ : Int → List (Option Event)
  positions : List (Event × Nat)

/-- The body of the `for event in relevant_events` loop (lines 119-142). -/
def layoutStep (winS winE : Int) (st : Layout) (e : Event) : Layout :=
  let dates := eventDates e winS winE
  let p := findPosition st.occ dates
  ⟨placeEvent st.occ dates p e, st.positions ++ [(e, p)]⟩

/-- `calculate_event_layout` (lines 105-144): flatten the weeks, take the
window bounds from the first and last date, select the relevant events, and
place each in input order at the first free vertical position over all its
covered dates. -/
def calculate_event_layout (events : List Event) (weeks : List (List Int)) : Layout :=
  let all_dates := weeks.flatten
  let start_date := all_dates.headD 0
  let end_date := all_dates.getLastD 0
  (get_events_for_date_range events start_date end_date).foldl
    (layoutStep start_date end_date) ⟨fun _ => [], []⟩

/-- The layout `generate_svg` computes (lines 146-148): the four-week window
of the reference date fed to `calculate_event_layout`. -/
def generate_svg_layout (events : List Event) (today : Int) : Layout :=
  calculate_event_layout events (get_four_week_range today)

/-- First-fit restated at the interval level (proved equivalent to the
occupancy-array mechanism of `calculate_event_layout` below): a position
conflicts with an already-placed event exactly when the two share a covered
window date and the placed event holds that position. -/
def conflictsWith (winS winE : Int) (placed : List (Event × Nat)) (e : Event)
    (p : Nat) : Bool :=
  placed.any (fun ep =>
    decide (ep.2 = p) && (eventDates ep.1 winS winE).any
      (fun d => decide (d ∈ eventDates e winS winE)))

def ffBound (placed : List (Event × Nat)) : Nat :=
  (placed.map (fun ep => ep.2 + 1)).foldr max 0

/-- The least position with no conflict among the already-placed events. -/
def ffPos (winS winE : Int) (placed : List (Event × Nat)) (e : Event) : Nat :=
  leastNot (conflictsWith winS winE placed e) (ffBound placed) 0

/-- First-fit over the events in their given (input) order. -/
def firstFitList (winS winE : Int) (es : List Event) : List (Event × Nat) :=
  es.foldl (fun placed e => placed ++ [(e, ffPos winS winE placed e)]) []

/-- `all_dates[0]` of line 110 for the four-week window. -/
def windowStart (today : Int) : Int :=
  ((get_four_week_range today).flatten).headD 0

/-- `all_dates[-1]` of line 111 for the four-week window. -/
def windowEnd (today : Int) : Int :=
  ((get_four_week_range today).flatten).getLastD 0

/-! ## Spec-side definitions

The definitions below follow the words of the specification and of the claims
(not the source); they are compared against the source-derived definitions
above. -/

/-- Claim wording: an event intersects a row when one of its visible
(window-clipped) dates lies in the row. -/
def intersectsRow (winS winE : Int) (e : Event) (row : List Int) : Bool :=
  (eventDates e winS winE).any (fun d => decide (d ∈ row))

def rowPositions (L : Layout) (winS winE : Int) (row : List Int) : List Nat :=
  (L.positions.filter (fun ep => intersectsRow winS winE ep.1 row)).map Prod.snd

/-- Claim C2's wording: the number of lanes used for a row is one plus the
maximum lane index among events intersecting the row (zero when none do). -/
def lanesInRow (L : Layout) (winS winE : Int) (row : List Int) : Nat :=
  match rowPositions L winS winE row with
  | [] => 0
  | ps => ps.foldl max 0 + 1

/-- Claim C2's wording: the number of events simultaneously overlapping at a
single date. -/
def cliqueAt (L : Layout) (winS winE : Int) (d : Int) : Nat :=
  (L.positions.filter (fun ep => decide (d ∈ eventDates ep.1 winS winE))).length

/-- Claim C2's wording: the maximum clique size over the dates of a row. -/
def maxCliqueInRow (L : Layout) (winS winE : Int) (row : List Int) : Nat :=
  (row.map (cliqueAt L winS winE)).foldl max 0

/-- A row-event span in the sense of the spec: an event with its visible
sub-range within one row and an assigned lane. -/
structure SpecSpan where
  ev : Event
  vs : Int
  ve : Int
  lane : Nat
deriving DecidableEq, Repr

/-- Claim C4's wording, step 1: events intersecting the row, each with
`visibleStart = max(start, rowStart)` and
`visibleEnd = max(visibleStart, min(end, rowEnd))`. -/
def specSpans (events : List Event) (rowS rowE : Int) : List (Event × Int × Int) :=
  (events.filter (fun e =>
      !(decide (e.end_date < rowS) || decide (e.start_date > rowE)))).map
    (fun e => (e, max e.start_date rowS,
      max (max e.start_date rowS) (min e.end_date rowE)))

/-- Strict order on `(visibleStart, visibleEnd)` keys. -/
def specLt (a b : Event × Int × Int) : Bool :=
  decide (a.2.1 < b.2.1) || (decide (a.2.1 = b.2.1) && decide (a.2.2 < b.2.2))

/-- Stable insertion: `x` goes before the first element it is strictly less
than, so original order is preserved on ties. -/
def sInsert (x : Event × Int × Int) :
    List (Event × Int × Int) → List (Event × Int × Int)
  | [] => [x]
  | y :: ys => if specLt y x then y :: sInsert x ys else x :: y :: ys

/-- Stable sort by `(visibleStart, visibleEnd)` ascending (claim C4, step 2). -/
def sSort : List (Event × Int × Int) → List (Event × Int × Int)
  | [] => []
  | x :: xs => sInsert x (sSort xs)

/-- First lane whose recorded end date is strictly before the span's visible
start (claim C4 / spec step 5). -/
def specFindLane : List Int → Int → Option Nat
  | [], _ => none
  | e :: es, vs => if e < vs then some 0 else (specFindLane es vs).map (· + 1)

/-- Claim C4's wording in full: per-row sorted greedy first-fit over lane end
dates. -/
def specRowLayout (events : List Event) (rowS rowE : Int) : List SpecSpan :=
  ((sSort (specSpans events rowS rowE)).foldl
    (fun (acc : List SpecSpan × List Int) t =>
      match specFindLane acc.2 t.2.1 with
      | some i => (acc.1 ++ [⟨t.1, t.2.1, t.2.2, i⟩], acc.2.set i t.2.2)
      | none => (acc.1 ++ [⟨t.1, t.2.1, t.2.2, acc.2.length⟩], acc.2 ++ [t.2.2]))
    ([], [])).1

/-- Claim C8's wording: the last record of the batch carrying a given key. -/
def lastWithKey (l : List Event) (k : EventKey) : Option Event :=
  l.foldl (fun acc e => if eventKey e = k then some e else acc) none

/-- Lookup in the association-list model of a Python dict (proof helper). -/
def dlookup (d : List (EventKey × Event)) (k : EventKey) : Option Event :=
  (d.find? (fun kv => decide (kv.1 = k))).map Prod.snd

/-- Both timestamps of a (present) record parse. -/
def parsesOk (r : RawRecord) : Bool :=
  (parse_ts (r.rawStart.getD "")).isSome && (parse_ts (r.rawEnd.getD "")).isSome

/-- The events of the records that pass the presence guard and parse, in
order: what a per-record-skip loader would produce. -/
def parsedEvents : List RawRecord → List Event
  | [] => []
  | r :: rest =>
    if fieldsPresent r then
      match parse_ts (r.rawStart.getD ""), parse_ts (r.rawEnd.getD "") with
      | some s, some e =>
        ⟨r.rawName.getD "", r.rawTitle.getD "", s, e⟩ :: parsedEvents rest
      | _, _ => parsedEvents rest
    else parsedEvents rest

/-! ## Concrete inputs used by witnesses and counterexamples

With reference date 8 (an ordinal Monday), the four-week window is the days
1 … 28 and its first row is the days 1 … 7. -/

def evA : Event := ⟨"A", "a", 1, 3⟩
def evB : Event := ⟨"B", "b", 2, 4⟩
def evR : Event := ⟨"R", "r", 1, 2⟩
def evQ : Event := ⟨"Q", "q", 2, 3⟩
def evP : Event := ⟨"P", "p", 5, 6⟩
def evX : Event := ⟨"X", "x", 3, 5⟩
def evY : Event := ⟨"Y", "y", 1, 4⟩

/-- A well-formed record (the timestamps end in `Z`). -/
def recOK (nm s e : String) : RawRecord := ⟨some s, some e, some nm, some "vac"⟩

/-- The record whose `start` cannot be parsed: stripping the final character
of `2024-01-15` leaves `2024-01-1`, which `fromisoformat` rejects. -/
def recBadStart : RawRecord :=
  ⟨some "2024-01-15", some "2024-01-16T00:00:00Z", some "m6", some "vac"⟩

def goodBatch : List RawRecord :=
  [recOK "m1" "2024-01-08T00:00:00Z" "2024-01-09T00:00:00Z",
   recOK "m2" "2024-01-09T00:00:00Z" "2024-01-10T00:00:00Z",
   recOK "m3" "2024-01-10T00:00:00Z" "2024-01-11T00:00:00Z",
   recOK "m4" "2024-01-11T00:00:00Z" "2024-01-12T00:00:00Z",
   recOK "m5" "2024-01-12T00:00:00Z" "2024-01-13T00:00:00Z"]

/-- Five valid records and one whose start date is unparseable (Scenario 6). -/
def badBatch : List RawRecord := goodBatch ++ [recBadStart]

/-- A record whose end date precedes its start date. -/
def invRec : RawRecord :=
  ⟨some "2024-01-20T00:00:00Z", some "2024-01-05T00:00:00Z", some "m", some "trip"⟩

/-- A record beginning before the four-week window of 2024-01-20 (whose window
starts 2024-01-08) but reaching into it. -/
def earlyRec : RawRecord :=
  ⟨some "2024-01-01T00:00:00Z", some "2024-01-15T00:00:00Z", some "m", some "trip"⟩

/-! ## Basic lemmas: bounded linear search -/

theorem leastNot_not (P : Nat → Bool) (fuel : Nat) :
    ∀ start, P (start + fuel) = false → P (leastNot P fuel start) = false := by
  induction fuel with
  | zero => intro start h; simpa [leastNot] using h
  | succ f ih =>
    intro start h
    cases hps : P start with
    | false => simp [leastNot, hps]
    | true =>
      simp only [leastNot, hps, if_true]
      apply ih (start + 1)
      have he : start + 1 + f = start + (f + 1) := by omega
      rw [he]; exact h

theorem leastNot_min (P : Nat → Bool) (fuel : Nat) :
    ∀ start q, start ≤ q → q < leastNot P fuel start → P q = true := by
  induction fuel with
  | zero =>
    intro start q h1 h2
    simp only [leastNot] at h2
    omega
  | succ f ih =>
    intro start q h1 h2
    cases hps : P start with
    | false => simp [leastNot, hps] at h2; omega
    | true =>
      simp only [leastNot, hps, if_true] at h2
      rcases Nat.eq_or_lt_of_le h1 with heq | hlt
      · rw [← heq]; exact hps
      · exact ih (start + 1) q hlt h2

/-- Two bounded searches for equivalent predicates, each returning a
least-false point, agree. -/
theorem least_unique {P Q : Nat → Bool} {r s : Nat}
    (hr : P r = false) (hrm : ∀ q, q < r → P q = true)
    (hs : Q s = false) (hsm : ∀ q, q < s → Q q = true)
    (hpq : ∀ p, P p = Q p) : r = s := by
  rcases Nat.lt_trichotomy r s with h | h | h
  · have := hsm r h; rw [← hpq r, hr] at this; cases this
  · exact h
  · have := hrm s h; rw [hpq s, hs] at this; cases this

/-! ## Basic lemmas: occupancy lists -/

theorem getPos_setPos_self :
    ∀ (l : List (Option Event)) (p : Nat) (e : Event),
      getPos (setPos l p e) p = some e := by
  intro l
  induction l with
  | nil =>
    intro p e
    induction p with
    | zero => rfl
    | succ q ih => simpa [setPos, getPos, List.getD] using ih
  | cons x xs ih =>
    intro p e
    cases p with
    | zero => rfl
    | succ q => simpa [setPos, getPos, List.getD] using ih q e

theorem getPos_setPos_ne :
    ∀ (l : List (Option Event)) (p q : Nat) (e : Event), q ≠ p →
      getPos (setPos l p e) q = getPos l q := by
  intro l
  induction l with
  | nil =>
    intro p
    induction p with
    | zero =>
      intro q e hq
      cases q with
      | zero => exact absurd rfl hq
      | succ q' => simp [setPos, getPos, List.getD]
    | succ p' ih =>
      intro q e hq
      cases q with
      | zero => rfl
      | succ q' =>
        have := ih q' e (by omega)
        simpa [setPos, getPos, List.getD] using this
  | cons x xs ih =>
    intro p q e hq
    cases p with
    | zero =>
      cases q with
      | zero => exact absurd rfl hq
      | succ q' => simp [setPos, getPos, List.getD]
    | succ p' =>
      cases q with
      | zero => rfl
      | succ q' =>
        have := ih p' q' e (by omega)
        simpa [setPos, getPos, List.getD] using this

theorem getPos_lt_length {l : List (Option Event)} {p : Nat} {e : Event}
    (h : getPos l p = some e) : p < l.length := by
  by_contra hge
  rw [getPos, List.getD_eq_default _ _ (by omega)] at h
  cases h

theorem blockedAt_eq_true_iff (occ : Int → List (Option Event))
    (dates : List Int) (p : Nat) :
    blockedAt occ dates p = true ↔
      ∃ d ∈ dates, ∃ e, getPos (occ d) p = some e := by
  simp only [blockedAt, List.any_eq_true, Bool.and_eq_true, decide_eq_true_eq,
    Option.isSome_iff_exists]
  constructor
  · rintro ⟨d, hd, _, e, he⟩
    exact ⟨d, hd, e, he⟩
  · rintro ⟨d, hd, e, he⟩
    exact ⟨d, hd, getPos_lt_length he, e, he⟩

theorem length_le_maxOccLen (occ : Int → List (Option Event)) :
    ∀ {dates : List Int} {d : Int}, d ∈ dates →
      (occ d).length ≤ maxOccLen occ dates := by
  intro dates
  induction dates with
  | nil => intro d h; cases h
  | cons d0 rest ih =>
    intro d h
    rcases List.mem_cons.mp h with rfl | h'
    · simp only [maxOccLen, List.map_cons, List.foldr_cons]
      exact Nat.le_max_left _ _
    · have := ih h'
      simp only [maxOccLen, List.map_cons, List.foldr_cons]
      exact le_trans this (Nat.le_max_right _ _)

theorem findPosition_free (occ : Int → List (Option Event)) (dates : List Int) :
    blockedAt occ dates (findPosition occ dates) = false := by
  apply leastNot_not
  rw [Bool.eq_false_iff]
  intro hb
  rcases (blockedAt_eq_true_iff occ dates _).mp hb with ⟨d, hd, e, he⟩
  have h1 := getPos_lt_length he
  have h2 := length_le_maxOccLen occ hd
  omega

theorem findPosition_min (occ : Int → List (Option Event)) (dates : List Int)
    {q : Nat} (h : q < findPosition occ dates) : blockedAt occ dates q = true :=
  leastNot_min _ _ 0 q (Nat.zero_le q) h

theorem ffBound_bound {placed : List (Event × Nat)} {ep : Event × Nat}
    (h : ep ∈ placed) : ep.2 < ffBound placed := by
  induction placed with
  | nil => cases h
  | cons a rest ih =>
    rcases List.mem_cons.mp h with rfl | h'
    · simp only [ffBound, List.map_cons, List.foldr_cons]
      omega
    · have := ih h'
      simp only [ffBound, List.map_cons, List.foldr_cons] at *
      omega

theorem ffPos_free (winS winE : Int) (placed : List (Event × Nat)) (e : Event) :
    conflictsWith winS winE placed e (ffPos winS winE placed e) = false := by
  apply leastNot_not
  rw [Bool.eq_false_iff]
  intro hb
  simp only [conflictsWith, List.any_eq_true, Bool.and_eq_true,
    decide_eq_true_eq] at hb
  rcases hb with ⟨ep, hep, hp, _⟩
  have := ffBound_bound hep
  omega

theorem ffPos_min (winS winE : Int) (placed : List (Event × Nat)) (e : Event)
    {q : Nat} (h : q < ffPos winS winE placed e) :
    conflictsWith winS winE placed e q = true :=
  leastNot_min _ _ 0 q (Nat.zero_le q) h

/-! ## Basic lemmas: date ranges and weeks -/

theorem mem_dateRange {lo hi d : Int} :
    d ∈ dateRange lo hi ↔ lo ≤ d ∧ d ≤ hi := by
  rw [dateRange]
  constructor
  · intro h
    rcases List.mem_map.mp h with ⟨i, hi', heq⟩
    rw [List.mem_range] at hi'
    omega
  · rintro ⟨h1, h2⟩
    refine List.mem_map.mpr ⟨(d - lo).toNat, ?_, ?_⟩
    · rw [List.mem_range]; omega
    · show lo + ((d - lo).toNat : Int) = d
      omega

theorem dateRange_getD {lo hi : Int} {i : Nat} (h : (i : Int) < hi + 1 - lo) :
    (dateRange lo hi).getD i 0 = lo + i := by
  have hi' : i < (hi + 1 - lo).toNat := by omega
  rw [List.getD_eq_getElem?_getD, dateRange, List.getElem?_map,
    List.getElem?_range hi']
  rfl

theorem dateRange_length {lo hi : Int} (h : lo ≤ hi + 1) :
    ((dateRange lo hi).length : Int) = hi + 1 - lo := by
  rw [dateRange, List.length_map, List.length_range]; omega

theorem dateRange_headD {lo hi : Int} (h : lo ≤ hi) :
    (dateRange lo hi).headD 0 = lo := by
  have h7 : (hi + 1 - lo).toNat = ((hi - lo).toNat) + 1 := by omega
  rw [dateRange, h7, List.range_succ_eq_map]
  simp

theorem dateRange_singleton (x : Int) : dateRange x x = [x] := by
  have h1 : (x + 1 - x).toNat = 1 := by omega
  rw [dateRange, h1]
  simp [List.range_succ]

theorem dateRange_append (lo mid hi : Int) (h1 : lo ≤ mid) (h2 : mid ≤ hi + 1) :
    dateRange lo (mid - 1) ++ dateRange mid hi = dateRange lo hi := by
  rw [dateRange, dateRange, dateRange]
  have hn : (hi + 1 - lo).toNat = (mid - 1 + 1 - lo).toNat + (hi + 1 - mid).toNat := by
    omega
  rw [hn, List.range_add, List.map_append]
  congr 1
  rw [List.map_map]
  apply List.map_congr_left
  intro i _
  simp only [Function.comp_apply]
  push_cast
  omega

theorem dateRange_getLastD {lo hi : Int} (h : lo ≤ hi) :
    (dateRange lo hi).getLastD 0 = hi := by
  have := dateRange_append lo hi hi h (by omega)
  rw [dateRange_singleton] at this
  rw [← this]
  rw [List.getLastD_concat]

theorem pyWeekday_nonneg (d : Int) : 0 ≤ pyWeekday d :=
  Int.emod_nonneg _ (by norm_num)

theorem pyWeekday_lt (d : Int) : pyWeekday d < 7 :=
  Int.emod_lt_of_pos _ (by norm_num)

theorem pyWeekday_monday (t : Int) : pyWeekday (t - pyWeekday t) = 0 := by
  unfold pyWeekday
  have he : t - (t - 1) % 7 - 1 = (t - 1) - (t - 1) % 7 := by ring
  rw [he, Int.sub_emod, Int.emod_emod_of_dvd _ (dvd_refl 7), sub_self, Int.zero_emod]

theorem pyWeekday_add_mul (t : Int) (k : Int) :
    pyWeekday (t + 7 * k) = pyWeekday t := by
  unfold pyWeekday
  have he : t + 7 * k - 1 = (t - 1) + 7 * k := by ring
  rw [he, Int.add_mul_emod_self_left]

/-- The anchor Monday of the reference date's week (`current_week[0]`). -/
def mondayOf (t : Int) : Int := t - pyWeekday t

theorem get_week_range_eq (t : Int) :
    get_week_range t = dateRange (mondayOf t) (mondayOf t + 6) := by
  rw [get_week_range, dateRange, mondayOf]
  have h7 : (t - pyWeekday t + 6 + 1 - (t - pyWeekday t)).toNat = 7 := by omega
  rw [h7]

theorem get_week_range_headD (t : Int) : (get_week_range t).headD 0 = mondayOf t := by
  rw [get_week_range_eq, dateRange_headD (by omega)]

theorem mondayOf_shift (t : Int) (k : Int) :
    mondayOf (mondayOf t + 7 * k) = mondayOf t + 7 * k := by
  have h1 : pyWeekday (mondayOf t + 7 * k) = pyWeekday (mondayOf t) :=
    pyWeekday_add_mul _ k
  have h2 : pyWeekday (mondayOf t) = 0 := pyWeekday_monday t
  show mondayOf t + 7 * k - pyWeekday (mondayOf t + 7 * k) = mondayOf t + 7 * k
  rw [h1, h2]
  ring

theorem four_week_eq (today : Int) :
    get_four_week_range today =
      [dateRange (mondayOf today - 7) (mondayOf today - 1),
       dateRange (mondayOf today) (mondayOf today + 6),
       dateRange (mondayOf today + 7) (mondayOf today + 13),
       dateRange (mondayOf today + 14) (mondayOf today + 20)] := by
  rw [get_four_week_range]
  rw [get_week_range_headD]
  have hm1 : mondayOf today - 7 = mondayOf today + 7 * (-1) := by ring
  have hp1 : mondayOf today + 7 = mondayOf today + 7 * 1 := by ring
  have hp2 : mondayOf today + 14 = mondayOf today + 7 * 2 := by ring
  have e1 : get_week_range (mondayOf today - 7) =
      dateRange (mondayOf today - 7) (mondayOf today - 1) := by
    rw [get_week_range_eq, hm1, mondayOf_shift,
      show mondayOf today + 7 * (-1) + 6 = mondayOf today - 1 by ring, ← hm1]
  have e2 : get_week_range (mondayOf today + 7) =
      dateRange (mondayOf today + 7) (mondayOf today + 13) := by
    rw [get_week_range_eq, hp1, mondayOf_shift,
      show mondayOf today + 7 * 1 + 6 = mondayOf today + 13 by ring, ← hp1]
  have e3 : get_week_range (mondayOf today + 14) =
      dateRange (mondayOf today + 14) (mondayOf today + 20) := by
    rw [get_week_range_eq, hp2, mondayOf_shift,
      show mondayOf today + 7 * 2 + 6 = mondayOf today + 20 by ring, ← hp2]
  rw [e1, e2, e3, get_week_range_eq today]

theorem four_week_flatten (today : Int) :
    (get_four_week_range today).flatten =
      dateRange (mondayOf today - 7) (mondayOf today + 20) := by
  rw [four_week_eq]
  show dateRange (mondayOf today - 7) (mondayOf today - 1) ++
      (dateRange (mondayOf today) (mondayOf today + 6) ++
        (dateRange (mondayOf today + 7) (mondayOf today + 13) ++
          (dateRange (mondayOf today + 14) (mondayOf today + 20) ++ []))) = _
  rw [List.append_nil]
  have h34 : dateRange (mondayOf today + 7) (mondayOf today + 13) ++
      dateRange (mondayOf today + 14) (mondayOf today + 20) =
      dateRange (mondayOf today + 7) (mondayOf today + 20) := by
    have := dateRange_append (mondayOf today + 7) (mondayOf today + 14)
      (mondayOf today + 20) (by omega) (by omega)
    rw [show mondayOf today + 14 - 1 = mondayOf today + 13 by ring] at this
    exact this
  have h234 : dateRange (mondayOf today) (mondayOf today + 6) ++
      dateRange (mondayOf today + 7) (mondayOf today + 20) =
      dateRange (mondayOf today) (mondayOf today + 20) := by
    have := dateRange_append (mondayOf today) (mondayOf today + 7)
      (mondayOf today + 20) (by omega) (by omega)
    rw [show mondayOf today + 7 - 1 = mondayOf today + 6 by ring] at this
    exact this
  have h1234 : dateRange (mondayOf today - 7) (mondayOf today - 1) ++
      dateRange (mondayOf today) (mondayOf today + 20) =
      dateRange (mondayOf today - 7) (mondayOf today + 20) :=
    dateRange_append (mondayOf today - 7) (mondayOf today)
      (mondayOf today + 20) (by omega) (by omega)
  rw [h34, h234, h1234]

theorem windowStart_eq (today : Int) : windowStart today = mondayOf today - 7 := by
  rw [windowStart, four_week_flatten, dateRange_headD (by omega)]

theorem windowEnd_eq (today : Int) : windowEnd today = mondayOf today + 20 := by
  rw [windowEnd, four_week_flatten, dateRange_getLastD (by omega)]

/-- Every row of the four-week window is a run of 7 consecutive days starting
on a Monday, lying between the window bounds. -/
theorem four_week_row {today : Int} {row : List Int}
    (h : row ∈ get_four_week_range today) :
    ∃ a : Int, row = dateRange a (a + 6) ∧ pyWeekday a = 0 ∧
      windowStart today ≤ a ∧ a + 6 ≤ windowEnd today := by
  rw [four_week_eq] at h
  rw [windowStart_eq, windowEnd_eq]
  have hm : pyWeekday (mondayOf today) = 0 := pyWeekday_monday today
  simp only [List.mem_cons, List.not_mem_nil, or_false] at h
  rcases h with rfl | rfl | rfl | rfl
  · refine ⟨mondayOf today - 7, ?_, ?_, by omega, by omega⟩
    · rw [show mondayOf today - 7 + 6 = mondayOf today - 1 by ring]
    · have := pyWeekday_add_mul (mondayOf today) (-1)
      rw [show mondayOf today + 7 * (-1) = mondayOf today - 7 by ring] at this
      rw [this, hm]
  · exact ⟨mondayOf today, rfl, hm, by omega, by omega⟩
  · refine ⟨mondayOf today + 7, ?_, ?_, by omega, by omega⟩
    · rw [show mondayOf today + 7 + 6 = mondayOf today + 13 by ring]
    · have := pyWeekday_add_mul (mondayOf today) 1
      rw [show mondayOf today + 7 * 1 = mondayOf today + 7 by ring] at this
      rw [this, hm]
  · refine ⟨mondayOf today + 14, ?_, ?_, by omega, by omega⟩
    · rw [show mondayOf today + 14 + 6 = mondayOf today + 20 by ring]
    · have := pyWeekday_add_mul (mondayOf today) 2
      rw [show mondayOf today + 7 * 2 = mondayOf today + 14 by ring] at this
      rw [this, hm]

/-! ## The layout invariant

The occupancy table and the recorded `layout_position` assignments describe
each other exactly: a cell `date_event_positions[d][p]` holds event `e` iff
`e` was assigned position `p` and covers `d`; and any two placements that
share a covered date sit at distinct positions. -/

def LayoutInv (winS winE : Int) (st : Layout) : Prop :=
  (∀ d p e, getPos (st.occ d) p = some e ↔
      ((e, p) ∈ st.positions ∧ d ∈ eventDates e winS winE)) ∧
  st.positions.Pairwise (fun a b =>
    (∃ d, d ∈ eventDates a.1 winS winE ∧ d ∈ eventDates b.1 winS winE) →
      a.2 ≠ b.2)

theorem layoutInv_init (winS winE : Int) :
    LayoutInv winS winE ⟨fun _ => [], []⟩ := by
  constructor
  · intro d p e
    simp [getPos]
  · simp

theorem layoutStep_inv {winS winE : Int} {st : Layout} (e : Event)
    (h : LayoutInv winS winE st) :
    LayoutInv winS winE (layoutStep winS winE st e) := by
  obtain ⟨hocc, hpw⟩ := h
  have hfree := findPosition_free st.occ (eventDates e winS winE)
  have hfree' : ∀ d ∈ eventDates e winS winE, ∀ e',
      getPos (st.occ d) (findPosition st.occ (eventDates e winS winE)) ≠ some e' := by
    intro d hd e' hsome
    have hb : blockedAt st.occ (eventDates e winS winE)
        (findPosition st.occ (eventDates e winS winE)) = true :=
      (blockedAt_eq_true_iff _ _ _).mpr ⟨d, hd, e', hsome⟩
    rw [hfree] at hb
    cases hb
  constructor
  · intro d p e'
    show getPos (placeEvent st.occ (eventDates e winS winE)
        (findPosition st.occ (eventDates e winS winE)) e d) p = some e' ↔
      ((e', p) ∈ st.positions ++ [(e, findPosition st.occ (eventDates e winS winE))] ∧
        d ∈ eventDates e' winS winE)
    rw [placeEvent]
    by_cases hd : d ∈ eventDates e winS winE
    · rw [if_pos hd]
      by_cases hp : p = findPosition st.occ (eventDates e winS winE)
      · subst hp
        rw [getPos_setPos_self]
        constructor
        · intro hse
          have he' : e' = e := by
            have := Option.some.inj hse
            rw [this]
          subst he'
          exact ⟨List.mem_append_right _ (List.mem_singleton.mpr rfl), hd⟩
        · rintro ⟨hmem, hde'⟩
          rcases List.mem_append.mp hmem with hold | hnew
          · exact absurd ((hocc d _ e').mpr ⟨hold, hde'⟩) (hfree' d hd e')
          · have : e' = e := congrArg Prod.fst (List.mem_singleton.mp hnew)
            rw [this]
      · rw [getPos_setPos_ne _ _ _ _ hp, hocc d p e']
        constructor
        · rintro ⟨hold, hde'⟩
          exact ⟨List.mem_append_left _ hold, hde'⟩
        · rintro ⟨hmem, hde'⟩
          rcases List.mem_append.mp hmem with hold | hnew
          · exact ⟨hold, hde'⟩
          · exact absurd (congrArg Prod.snd (List.mem_singleton.mp hnew)) hp
    · rw [if_neg hd, hocc d p e']
      constructor
      · rintro ⟨hold, hde'⟩
        exact ⟨List.mem_append_left _ hold, hde'⟩
      · rintro ⟨hmem, hde'⟩
        rcases List.mem_append.mp hmem with hold | hnew
        · exact ⟨hold, hde'⟩
        · have he' : e' = e := congrArg Prod.fst (List.mem_singleton.mp hnew)
          rw [he'] at hde'
          exact absurd hde' hd
  · show (st.positions ++
        [(e, findPosition st.occ (eventDates e winS winE))]).Pairwise _
    rw [List.pairwise_append]
    refine ⟨hpw, List.pairwise_singleton _ _, ?_⟩
    rintro ⟨ea, pa⟩ ha b hb
    have hbe : b = (e, findPosition st.occ (eventDates e winS winE)) :=
      List.mem_singleton.mp hb
    subst hbe
    rintro ⟨d, hd1, hd2⟩ hpa
    simp only at hpa hd1
    rw [hpa] at ha
    exact hfree' d hd2 ea ((hocc d _ ea).mpr ⟨ha, hd1⟩)

/-- Under the invariant, the mechanical blocked test coincides with the
interval-level conflict test. -/
theorem blocked_eq_conflict {winS winE : Int} {st : Layout}
    (h : LayoutInv winS winE st) (e : Event) (p : Nat) :
    blockedAt st.occ (eventDates e winS winE) p =
      conflictsWith winS winE st.positions e p := by
  rcases hb : blockedAt st.occ (eventDates e winS winE) p with _ | _
  · rcases hc : conflictsWith winS winE st.positions e p with _ | _
    · rfl
    · exfalso
      simp only [conflictsWith, List.any_eq_true, Bool.and_eq_true,
        decide_eq_true_eq] at hc
      rcases hc with ⟨ep, hep, hp2, d, hd1, hd2⟩
      have : getPos (st.occ d) p = some ep.1 := by
        apply (h.1 d p ep.1).mpr
        refine ⟨?_, hd1⟩
        rw [← hp2]
        exact hep
      have hb2 : blockedAt st.occ (eventDates e winS winE) p = true :=
        (blockedAt_eq_true_iff _ _ _).mpr ⟨d, hd2, ep.1, this⟩
      rw [hb] at hb2
      cases hb2
  · rcases (blockedAt_eq_true_iff _ _ _).mp hb with ⟨d, hd, e', he'⟩
    rcases (h.1 d p e').mp he' with ⟨hmem, hde'⟩
    have : conflictsWith winS winE st.positions e p = true := by
      simp only [conflictsWith, List.any_eq_true, Bool.and_eq_true,
        decide_eq_true_eq]
      exact ⟨(e', p), hmem, rfl, d, hde', hd⟩
    rw [this]

theorem findPosition_eq_ffPos {winS winE : Int} {st : Layout}
    (h : LayoutInv winS winE st) (e : Event) :
    findPosition st.occ (eventDates e winS winE) = ffPos winS winE st.positions e :=
  least_unique (findPosition_free _ _) (fun _ hq => findPosition_min _ _ hq)
    (ffPos_free _ _ _ _) (fun _ hq => ffPos_min _ _ _ _ hq)
    (fun p => blocked_eq_conflict h e p)

theorem layout_fold_spec (winS winE : Int) (es : List Event) :
    ∀ st : Layout, LayoutInv winS winE st →
      LayoutInv winS winE (es.foldl (layoutStep winS winE) st) ∧
      (es.foldl (layoutStep winS winE) st).positions =
        es.foldl (fun placed e => placed ++ [(e, ffPos winS winE placed e)])
          st.positions := by
  induction es with
  | nil => intro st h; exact ⟨h, rfl⟩
  | cons e rest ih =>
    intro st h
    have hstep := layoutStep_inv e h
    have hpos : (layoutStep winS winE st e).positions =
        st.positions ++ [(e, ffPos winS winE st.positions e)] := by
      show st.positions ++ [(e, findPosition st.occ (eventDates e winS winE))] = _
      rw [findPosition_eq_ffPos h e]
    obtain ⟨h1, h2⟩ := ih (layoutStep winS winE st e) hstep
    refine ⟨h1, ?_⟩
    rw [List.foldl_cons, List.foldl_cons, h2, hpos]

theorem calculate_event_layout_inv (events : List Event) (weeks : List (List Int)) :
    LayoutInv ((weeks.flatten).headD 0) ((weeks.flatten).getLastD 0)
      (calculate_event_layout events weeks) :=
  (layout_fold_spec _ _ _ _ (layoutInv_init _ _)).1

/-- The recorded position assignments are exactly first-fit over the relevant
events in their input order. -/
theorem calculate_event_layout_positions (events : List Event)
    (weeks : List (List Int)) :
    (calculate_event_layout events weeks).positions =
      firstFitList ((weeks.flatten).headD 0) ((weeks.flatten).getLastD 0)
        (get_events_for_date_range events
          ((weeks.flatten).headD 0) ((weeks.flatten).getLastD 0)) :=
  (layout_fold_spec _ _ _ _ (layoutInv_init _ _)).2

theorem firstFit_map_fst (winS winE : Int) (es : List Event) :
    ∀ placed : List (Event × Nat),
      (es.foldl (fun placed e => placed ++ [(e, ffPos winS winE placed e)])
          placed).map Prod.fst = placed.map Prod.fst ++ es := by
  induction es with
  | nil => intro placed; simp
  | cons e rest ih =>
    intro placed
    rw [List.foldl_cons, ih]
    simp

theorem layout_positions_map_fst (events : List Event) (weeks : List (List Int)) :
    (calculate_event_layout events weeks).positions.map Prod.fst =
      get_events_for_date_range events
        ((weeks.flatten).headD 0) ((weeks.flatten).getLastD 0) := by
  rw [calculate_event_layout_positions, firstFitList, firstFit_map_fst]
  simp

/-! ## Counting lemmas: clique size is bounded by the lane count -/

theorem foldl_max_init_le (L : List Nat) : ∀ a : Nat, a ≤ L.foldl max a := by
  induction L with
  | nil => intro a; simp
  | cons x xs ih => intro a; exact le_trans (Nat.le_max_left a x) (ih (max a x))

theorem le_foldl_max :
    ∀ (L : List Nat) (x : Nat), x ∈ L → ∀ a : Nat, x ≤ L.foldl max a := by
  intro L
  induction L with
  | nil => intro x h; cases h
  | cons y ys ih =>
    intro x h a
    rcases List.mem_cons.mp h with rfl | h'
    · exact le_trans (Nat.le_max_right a x) (foldl_max_init_le ys (max a x))
    · exact ih x h' (max a y)

theorem foldl_max_le {L : List Nat} {n : Nat} :
    ∀ a : Nat, a ≤ n → (∀ x ∈ L, x ≤ n) → L.foldl max a ≤ n := by
  induction L with
  | nil => intro a ha _; simpa using ha
  | cons y ys ih =>
    intro a ha h
    refine ih (max a y) ?_ (fun x hx => h x (List.mem_cons_of_mem _ hx))
    have := h y (List.mem_cons_self _ _)
    omega

theorem nodup_lt_length_le {L : List Nat} {n : Nat} (hnd : L.Nodup)
    (hlt : ∀ x ∈ L, x < n) : L.length ≤ n := by
  have h1 : L.toFinset.card = L.length := List.toFinset_card_of_nodup hnd
  have h2 : L.toFinset ⊆ Finset.range n := by
    intro x hx
    rw [Finset.mem_range]
    exact hlt x (List.mem_toFinset.mp hx)
  have h3 := Finset.card_le_card h2
  rw [h1, Finset.card_range] at h3
  exact h3

theorem lanesInRow_pos_lt {L : Layout} {winS winE : Int} {row : List Int}
    {ep : Event × Nat} (hmem : ep ∈ L.positions)
    (hint : intersectsRow winS winE ep.1 row = true) :
    ep.2 < lanesInRow L winS winE row := by
  have hp : ep.2 ∈ rowPositions L winS winE row := by
    rw [rowPositions]
    exact List.mem_map_of_mem _ (List.mem_filter.mpr ⟨hmem, hint⟩)
  rcases hrp : rowPositions L winS winE row with _ | ⟨q, qs⟩
  · rw [hrp] at hp; cases hp
  · rw [hrp] at hp
    have hle := le_foldl_max _ _ hp 0
    simp only [lanesInRow, hrp]
    omega

theorem cliqueAt_le_lanesInRow {L : Layout} {winS winE : Int}
    (hinv : LayoutInv winS winE L) {row : List Int} {d : Int} (hd : d ∈ row) :
    cliqueAt L winS winE d ≤ lanesInRow L winS winE row := by
  have h1 : (L.positions.filter
      (fun ep => decide (d ∈ eventDates ep.1 winS winE))).Pairwise
      (fun a b => (∃ d0, d0 ∈ eventDates a.1 winS winE ∧
        d0 ∈ eventDates b.1 winS winE) → a.2 ≠ b.2) :=
    List.Pairwise.filter _ hinv.2
  have hpw : (L.positions.filter
      (fun ep => decide (d ∈ eventDates ep.1 winS winE))).Pairwise
      (fun a b => a.2 ≠ b.2) := by
    refine List.Pairwise.imp_of_mem ?_ h1
    intro a b ha hb hab
    have hda : d ∈ eventDates a.1 winS winE := by
      have := (List.mem_filter.mp ha).2
      exact of_decide_eq_true this
    have hdb : d ∈ eventDates b.1 winS winE := by
      have := (List.mem_filter.mp hb).2
      exact of_decide_eq_true this
    exact hab ⟨d, hda, hdb⟩
  have hnd : ((L.positions.filter
      (fun ep => decide (d ∈ eventDates ep.1 winS winE))).map Prod.snd).Nodup :=
    (List.pairwise_map).mpr hpw
  have hlt : ∀ x ∈ (L.positions.filter
      (fun ep => decide (d ∈ eventDates ep.1 winS winE))).map Prod.snd,
      x < lanesInRow L winS winE row := by
    intro x hx
    rcases List.mem_map.mp hx with ⟨ep, hep, rfl⟩
    have hmem := (List.mem_filter.mp hep).1
    have hdep : d ∈ eventDates ep.1 winS winE :=
      of_decide_eq_true (List.mem_filter.mp hep).2
    have hint : intersectsRow winS winE ep.1 row = true := by
      rw [intersectsRow, List.any_eq_true]
      exact ⟨d, hdep, decide_eq_true hd⟩
    exact lanesInRow_pos_lt hmem hint
  have hle := nodup_lt_length_le hnd hlt
  rw [List.length_map] at hle
  rw [cliqueAt]
  exact hle

/-! ## Dict lemmas: deduplication -/

theorem mem_dictInsert {d : List (EventKey × Event)} {k : EventKey} {v : Event}
    {kv : EventKey × Event} (h : kv ∈ dictInsert d k v) :
    kv ∈ d ∨ kv = (k, v) := by
  induction d with
  | nil =>
    right
    rw [dictInsert] at h
    exact List.mem_singleton.mp h
  | cons a rest ih =>
    obtain ⟨k', v'⟩ := a
    rw [dictInsert] at h
    by_cases hk : k' = k
    · rw [if_pos hk] at h
      rcases List.mem_cons.mp h with rfl | h'
      · right; rw [hk]
      · left; exact List.mem_cons_of_mem _ h'
    · rw [if_neg hk] at h
      rcases List.mem_cons.mp h with rfl | h'
      · left; exact List.mem_cons_self _ _
      · rcases ih h' with h'' | h''
        · left; exact List.mem_cons_of_mem _ h''
        · right; exact h''

theorem dictInsert_pairwise {d : List (EventKey × Event)} {k : EventKey}
    {v : Event} (h : d.Pairwise (fun a b => a.1 ≠ b.1)) :
    (dictInsert d k v).Pairwise (fun a b => a.1 ≠ b.1) := by
  induction d with
  | nil => simp [dictInsert]
  | cons a rest ih =>
    obtain ⟨k', v'⟩ := a
    rw [List.pairwise_cons] at h
    obtain ⟨hhead, htail⟩ := h
    rw [dictInsert]
    by_cases hk : k' = k
    · rw [if_pos hk, List.pairwise_cons]
      exact ⟨hhead, htail⟩
    · rw [if_neg hk, List.pairwise_cons]
      constructor
      · intro b hb
        rcases mem_dictInsert hb with h' | rfl
        · exact hhead b h'
        · exact hk
      · exact ih htail

theorem dictInsert_inv {d : List (EventKey × Event)} {k : EventKey} {v : Event}
    (h : ∀ kv ∈ d, eventKey kv.2 = kv.1) (hv : eventKey v = k) :
    ∀ kv ∈ dictInsert d k v, eventKey kv.2 = kv.1 := by
  intro kv hkv
  rcases mem_dictInsert hkv with h' | rfl
  · exact h kv h'
  · exact hv

theorem dlookup_cons (k1 : EventKey) (w : Event) (rest : List (EventKey × Event))
    (k : EventKey) :
    dlookup ((k1, w) :: rest) k = if k1 = k then some w else dlookup rest k := by
  by_cases h : k1 = k
  · simp [dlookup, List.find?, h]
  · simp [dlookup, List.find?, h]

theorem dlookup_dictInsert (k0 : EventKey) (v : Event) (k : EventKey) :
    ∀ d : List (EventKey × Event),
      dlookup (dictInsert d k0 v) k = if k0 = k then some v else dlookup d k := by
  intro d
  induction d with
  | nil =>
    rw [dictInsert, dlookup_cons]
  | cons a rest ih =>
    obtain ⟨k1, v1⟩ := a
    rw [dictInsert]
    by_cases h1 : k1 = k0
    · rw [if_pos h1, dlookup_cons, dlookup_cons]
      subst h1
      by_cases h : k1 = k
      · rw [if_pos h, if_pos h]
      · rw [if_neg h, if_neg h, if_neg h]
    · rw [if_neg h1, dlookup_cons, dlookup_cons]
      by_cases h : k1 = k
      · rw [if_pos h, if_pos h]
        rw [if_neg (by rw [← h]; exact fun hc => h1 hc.symm)]
      · rw [if_neg h, if_neg h, ih]

theorem dlookup_fold (l : List Event) :
    ∀ (acc : List (EventKey × Event)) (k : EventKey),
      dlookup (l.foldl (fun d e => dictInsert d (eventKey e) e) acc) k =
        l.foldl (fun a e => if eventKey e = k then some e else a) (dlookup acc k) := by
  induction l with
  | nil => intro acc k; rfl
  | cons e rest ih =>
    intro acc k
    rw [List.foldl_cons, List.foldl_cons, ih]
    congr 1
    rw [dlookup_dictInsert]

theorem find?_values (k : EventKey) :
    ∀ d : List (EventKey × Event), (∀ kv ∈ d, eventKey kv.2 = kv.1) →
      (d.map Prod.snd).find? (fun e => decide (eventKey e = k)) = dlookup d k := by
  intro d
  induction d with
  | nil => intro _; rfl
  | cons a rest ih =>
    obtain ⟨k1, v1⟩ := a
    intro hinv
    have hk1 : eventKey v1 = k1 := hinv (k1, v1) (List.mem_cons_self _ _)
    rw [List.map_cons, List.find?_cons, dlookup_cons]
    by_cases h : k1 = k
    · rw [if_pos h]
      have : decide (eventKey v1 = k) = true := decide_eq_true (by rw [hk1, h])
      rw [this]
    · have : decide (eventKey v1 = k) = false := by
        rw [decide_eq_false_iff_not, hk1]
        exact h
      rw [this, if_neg h]
      exact ih (fun kv hkv => hinv kv (List.mem_cons_of_mem _ hkv))

theorem dict_fold_inv (l : List Event) :
    ∀ acc : List (EventKey × Event), (∀ kv ∈ acc, eventKey kv.2 = kv.1) →
      ∀ kv ∈ l.foldl (fun d e => dictInsert d (eventKey e) e) acc,
        eventKey kv.2 = kv.1 := by
  induction l with
  | nil => intro acc h; exact h
  | cons e rest ih =>
    intro acc h
    exact ih _ (dictInsert_inv h rfl)

theorem dict_fold_pairwise (l : List Event) :
    ∀ acc : List (EventKey × Event), acc.Pairwise (fun a b => a.1 ≠ b.1) →
      (l.foldl (fun d e => dictInsert d (eventKey e) e) acc).Pairwise
        (fun a b => a.1 ≠ b.1) := by
  induction l with
  | nil => intro acc h; exact h
  | cons e rest ih =>
    intro acc h
    exact ih _ (dictInsert_pairwise h)

theorem remove_duplicate_pairwise (l : List Event) :
    (remove_duplicate_events l).Pairwise (fun a b => eventKey a ≠ eventKey b) := by
  rw [remove_duplicate_events, List.pairwise_map]
  have hinv := dict_fold_inv l [] (by intro kv h; cases h)
  have hpw := dict_fold_pairwise l [] List.Pairwise.nil
  refine List.Pairwise.imp_of_mem ?_ hpw
  intro a b ha hb hne
  rw [hinv a ha, hinv b hb]
  exact hne

theorem remove_duplicate_find? (l : List Event) (k : EventKey) :
    (remove_duplicate_events l).find? (fun e => decide (eventKey e = k)) =
      lastWithKey l k := by
  rw [remove_duplicate_events,
    find?_values k _ (dict_fold_inv l [] (by intro kv h; cases h)),
    dlookup_fold]
  rfl

theorem mem_dict_fold (l : List Event) :
    ∀ (acc : List (EventKey × Event)) (e : Event),
      e ∈ (l.foldl (fun d e => dictInsert d (eventKey e) e) acc).map Prod.snd →
        e ∈ acc.map Prod.snd ∨ e ∈ l := by
  induction l with
  | nil => intro acc e h; left; exact h
  | cons x rest ih =>
    intro acc e h
    rcases ih (dictInsert acc (eventKey x) x) e h with h' | h'
    · rcases List.mem_map.mp h' with ⟨kv, hkv, rfl⟩
      rcases mem_dictInsert hkv with h'' | rfl
      · left; exact List.mem_map_of_mem _ h''
      · right; exact List.mem_cons_self _ _
    · right; exact List.mem_cons_of_mem _ h'

theorem mem_remove_duplicate {l : List Event} {e : Event}
    (h : e ∈ remove_duplicate_events l) : e ∈ l := by
  rcases mem_dict_fold l [] e h with h' | h'
  · cases h'
  · exact h'

/-! ## Loader lemmas -/

theorem loadRaw_ok :
    ∀ data : List RawRecord,
      (∀ r ∈ data, fieldsPresent r = true → parsesOk r = true) →
      loadRaw data = some (parsedEvents data) := by
  intro data
  induction data with
  | nil => intro _; rfl
  | cons r rest ih =>
    intro h
    have hrest := fun r' hr' => h r' (List.mem_cons_of_mem _ hr')
    rw [loadRaw, parsedEvents]
    by_cases hp : fieldsPresent r = true
    · rw [if_pos hp, if_pos hp]
      have hok := h r (List.mem_cons_self _ _) hp
      rw [parsesOk, Bool.and_eq_true] at hok
      obtain ⟨h1, h2⟩ := hok
      rw [Option.isSome_iff_exists] at h1 h2
      obtain ⟨s, hs⟩ := h1
      obtain ⟨e2, he⟩ := h2
      rw [hs, he, ih hrest]
      rfl
    · rw [if_neg hp, if_neg hp]
      exact ih hrest

theorem loadRaw_fail :
    ∀ data : List RawRecord,
      (∃ r ∈ data, fieldsPresent r = true ∧ parsesOk r = false) →
      loadRaw data = none := by
  intro data
  induction data with
  | nil => rintro ⟨r, hr, _⟩; cases hr
  | cons r0 rest ih =>
    rintro ⟨r, hr, hp, hn⟩
    rw [loadRaw]
    rcases List.mem_cons.mp hr with rfl | hr'
    · rw [if_pos hp]
      cases hs : parse_ts (r.rawStart.getD "") with
      | none => rfl
      | some s =>
        cases he : parse_ts (r.rawEnd.getD "") with
        | none => rfl
        | some e =>
          exfalso
          rw [parsesOk, hs, he] at hn
          simp at hn
    · by_cases h0 : fieldsPresent r0 = true
      · rw [if_pos h0]
        cases hs : parse_ts (r0.rawStart.getD "") with
        | none => rfl
        | some s =>
          cases he : parse_ts (r0.rawEnd.getD "") with
          | none => rfl
          | some e =>
            rw [ih ⟨r, hr', hp, hn⟩]
            rfl
      · rw [if_neg h0]
        exact ih ⟨r, hr', hp, hn⟩

theorem loadRaw_mem :
    ∀ data : List RawRecord, ∀ raws : List Event, loadRaw data = some raws →
      ∀ e : Event, e ∈ raws →
      ∃ r ∈ data, fieldsPresent r = true ∧
        parse_ts (r.rawStart.getD "") = some e.start_date ∧
        parse_ts (r.rawEnd.getD "") = some e.end_date ∧
        r.rawName.getD "" = e.member ∧ r.rawTitle.getD "" = e.description := by
  intro data
  induction data with
  | nil =>
    intro raws h e he
    rw [loadRaw] at h
    obtain rfl := Option.some.inj h
    cases he
  | cons r rest ih =>
    intro raws h e he
    rw [loadRaw] at h
    by_cases hp : fieldsPresent r = true
    · rw [if_pos hp] at h
      cases hs : parse_ts (r.rawStart.getD "") with
      | none => rw [hs] at h; cases h
      | some s =>
        cases he2 : parse_ts (r.rawEnd.getD "") with
        | none => rw [hs, he2] at h; cases h
        | some e2 =>
          rw [hs, he2] at h
          cases hrest : loadRaw rest with
          | none => rw [hrest] at h; cases h
          | some tl =>
            rw [hrest] at h
            obtain rfl := Option.some.inj h
            rcases List.mem_cons.mp he with rfl | htl
            · exact ⟨r, List.mem_cons_self _ _, hp, hs, he2, rfl, rfl⟩
            · obtain ⟨r', hr', hrest'⟩ := ih tl hrest e htl
              exact ⟨r', List.mem_cons_of_mem _ hr', hrest'⟩
    · rw [if_neg hp] at h
      obtain ⟨r', hr', hrest'⟩ := ih raws h e he
      exact ⟨r', List.mem_cons_of_mem _ hr', hrest'⟩

/-! ## Claim C9: the four-week window invariants -/

/-- C9: for every reference date, the rolling window is exactly 4 rows of 7
dates (rows × 7 = total date count), the 28 dates form one contiguous run
increasing by exactly one day with no null cells, every row is a complete
Monday-to-Sunday week, and the reference date lies in the second row.  The
statement is uniform in the ordinal `today`, so it covers reference dates at
month and year boundaries. -/
theorem claim_C9 (today : Int) :
    (get_four_week_range today).length = 4 ∧
    (∀ w ∈ get_four_week_range today, w.length = 7) ∧
    ((get_four_week_range today).flatten).length =
      (get_four_week_range today).length * 7 ∧
    (get_four_week_range today).flatten =
      dateRange (mondayOf today - 7) (mondayOf today + 20) ∧
    (∀ i : Nat, i + 1 < ((get_four_week_range today).flatten).length →
      ((get_four_week_range today).flatten).getD (i + 1) 0 =
        ((get_four_week_range today).flatten).getD i 0 + 1) ∧
    (∀ w ∈ get_four_week_range today,
      w = dateRange (w.headD 0) (w.headD 0 + 6) ∧ pyWeekday (w.headD 0) = 0) ∧
    today ∈ (get_four_week_range today).getD 1 [] := by
  have hflatlen : ((get_four_week_range today).flatten).length = 28 := by
    have h1 : (((get_four_week_range today).flatten).length : Int) = 28 := by
      rw [four_week_flatten, dateRange_length (by omega)]
      ring
    omega
  refine ⟨?_, ?_, ?_, four_week_flatten today, ?_, ?_, ?_⟩
  · rw [four_week_eq]; rfl
  · intro w hw
    obtain ⟨a, hw_eq, _, _, _⟩ := four_week_row hw
    have : ((dateRange a (a + 6)).length : Int) = 7 := by
      rw [dateRange_length (by omega)]; ring
    rw [hw_eq]
    omega
  · rw [hflatlen, four_week_eq]; rfl
  · intro i hi
    rw [hflatlen] at hi
    rw [four_week_flatten, dateRange_getD (by omega), dateRange_getD (by omega)]
    push_cast
    ring
  · intro w hw
    obtain ⟨a, hw_eq, hwd, _, _⟩ := four_week_row hw
    have hh : w.headD 0 = a := by
      rw [hw_eq]; exact dateRange_headD (by omega)
    rw [hh]
    exact ⟨hw_eq, hwd⟩
  · rw [four_week_eq]
    show today ∈ dateRange (mondayOf today) (mondayOf today + 6)
    rw [mem_dateRange]
    have h1 := pyWeekday_nonneg today
    have h2 := pyWeekday_lt today
    rw [mondayOf]
    omega

/-- Witness for C9 at 2023-12-31, a year-boundary reference date. -/
theorem claim_C9_witness :
    ((get_four_week_range (toOrdinal 2023 12 31)).getD 0 []).length = 7 ∧
    toOrdinal 2023 12 31 ∈ (get_four_week_range (toOrdinal 2023 12 31)).getD 1 [] :=
  ⟨(claim_C9 (toOrdinal 2023 12 31)).2.1 _ (by decide),
   (claim_C9 (toOrdinal 2023 12 31)).2.2.2.2.2.2⟩

/-! ## Claim C1: no two same-lane spans in a row overlap or touch -/

/-- C1: in every row of the computed layout, two distinct events assigned the
same lane (vertical position) whose visible ranges within that row are
nonempty have visible ranges that neither overlap nor touch on a day: one
event's visible end is strictly before the other's visible start.  (Visible
range in a row is `max(start, rowStart) … min(end, rowEnd)`, as the renderer
computes it in lines 228-229.) -/
theorem claim_C1 (events : List Event) (today : Int) (row : List Int)
    (e1 e2 : Event) (p : Nat)
    (hrow : row ∈ get_four_week_range today)
    (h1 : (e1, p) ∈ (generate_svg_layout events today).positions)
    (h2 : (e2, p) ∈ (generate_svg_layout events today).positions)
    (hne : e1 ≠ e2)
    (hv1 : max e1.start_date (row.headD 0) ≤ min e1.end_date (row.getLastD 0))
    (hv2 : max e2.start_date (row.headD 0) ≤ min e2.end_date (row.getLastD 0)) :
    min e1.end_date (row.getLastD 0) < max e2.start_date (row.headD 0) ∨
    min e2.end_date (row.getLastD 0) < max e1.start_date (row.headD 0) := by
  by_contra hcon
  push_neg at hcon
  obtain ⟨hc1, hc2⟩ := hcon
  obtain ⟨a, hrow_eq, _, haS, haE⟩ := four_week_row hrow
  have hhead : row.headD 0 = a := by
    rw [hrow_eq]; exact dateRange_headD (by omega)
  have hlast : row.getLastD 0 = a + 6 := by
    rw [hrow_eq]; exact dateRange_getLastD (by omega)
  rw [hhead, hlast] at hv1 hv2 hc1 hc2
  have hinv := calculate_event_layout_inv events (get_four_week_range today)
  have hd1 : max (max e1.start_date a) (max e2.start_date a) ∈
      eventDates e1 (windowStart today) (windowEnd today) := by
    rw [eventDates, mem_dateRange]
    constructor
    · omega
    · omega
  have hd2 : max (max e1.start_date a) (max e2.start_date a) ∈
      eventDates e2 (windowStart today) (windowEnd today) := by
    rw [eventDates, mem_dateRange]
    constructor
    · omega
    · omega
  have hg1 : getPos ((generate_svg_layout events today).occ
      (max (max e1.start_date a) (max e2.start_date a))) p = some e1 :=
    (hinv.1 _ p e1).mpr ⟨h1, hd1⟩
  have hg2 : getPos ((generate_svg_layout events today).occ
      (max (max e1.start_date a) (max e2.start_date a))) p = some e2 :=
    (hinv.1 _ p e2).mpr ⟨h2, hd2⟩
  rw [hg1] at hg2
  exact hne (Option.some.inj hg2)

/-- Witness for C1: with events R=[1,2], Q=[2,3], P=[5,6] and reference date 8,
R and P share position 0 in the first row and their visible ranges are
strictly separated. -/
theorem claim_C1_witness :
    min evR.end_date (((get_four_week_range 8).getD 0 []).getLastD 0) <
      max evP.start_date (((get_four_week_range 8).getD 0 []).headD 0) ∨
    min evP.end_date (((get_four_week_range 8).getD 0 []).getLastD 0) <
      max evR.start_date (((get_four_week_range 8).getD 0 []).headD 0) :=
  claim_C1 [evR, evQ, evP] 8 ((get_four_week_range 8).getD 0 []) evR evP 0
    (by decide) (by decide) (by decide) (by decide) (by decide) (by decide)

/-! ## Claim C10: one window-global position per event -/

/-- C10: each relevant event receives exactly one window-global position
(`positions` lists exactly the relevant events, in order); for ANY placed
event — solitary or not — that one position records the event on every date
it covers, across all rows; and a second, distinct placed event whose
window-clipped date range shares any date with it never shares its
position anywhere in the window. -/
theorem claim_C10 (events : List Event) (today : Int) (e1 : Event)
    (p1 : Nat) (d : Int)
    (h1 : (e1, p1) ∈ (generate_svg_layout events today).positions)
    (hd1 : d ∈ eventDates e1 (windowStart today) (windowEnd today)) :
    getPos ((generate_svg_layout events today).occ d) p1 = some e1 ∧
    (generate_svg_layout events today).positions.map Prod.fst =
      get_events_for_date_range events (windowStart today) (windowEnd today) ∧
    (∀ e2 p2, (e2, p2) ∈ (generate_svg_layout events today).positions →
      e1 ≠ e2 → d ∈ eventDates e2 (windowStart today) (windowEnd today) →
      p1 ≠ p2) := by
  have hinv := calculate_event_layout_inv events (get_four_week_range today)
  have hg1 : getPos ((generate_svg_layout events today).occ d) p1 = some e1 :=
    (hinv.1 d p1 e1).mpr ⟨h1, hd1⟩
  refine ⟨hg1, layout_positions_map_fst events (get_four_week_range today), ?_⟩
  intro e2 p2 h2 hne hd2
  have hg2 : getPos ((generate_svg_layout events today).occ d) p2 = some e2 :=
    (hinv.1 d p2 e2).mpr ⟨h2, hd2⟩
  intro hp
  rw [hp] at hg1
  rw [hg1] at hg2
  exact hne (Option.some.inj hg2)

/-- Witness for C10: A=[1,3] is recorded at its position 0 on its covered
date 2; B=[2,4] also covers date 2 and therefore has a different position
(0 ≠ 1). -/
theorem claim_C10_witness :
    getPos ((generate_svg_layout [evA, evB] 8).occ 2) 0 = some evA ∧
    (generate_svg_layout [evA, evB] 8).positions.map Prod.fst =
      get_events_for_date_range [evA, evB] (windowStart 8) (windowEnd 8) ∧
    (0 : Nat) ≠ 1 := by
  have h := claim_C10 [evA, evB] 8 evA 0 2 (by decide) (by decide)
  exact ⟨h.1, h.2.1, h.2.2 evB 1 (by decide) (by decide) (by decide)⟩

/-! ## Claim C2: lane count versus clique size -/

/-- C2 fails on the code: with events R=[1,2], Q=[2,3], P=[5,6], X=[3,5] in
this input order and reference date 8, the first row of the window uses 3
lanes (positions 0, 1, 0, 2) while no date of that row is covered by more
than 2 events. -/
theorem claim_C2_counterexample :
    lanesInRow (generate_svg_layout [evR, evQ, evP, evX] 8) (windowStart 8)
        (windowEnd 8) ((get_four_week_range 8).getD 0 []) = 3 ∧
    maxCliqueInRow (generate_svg_layout [evR, evQ, evP, evX] 8) (windowStart 8)
        (windowEnd 8) ((get_four_week_range 8).getD 0 []) = 2 ∧
    lanesInRow (generate_svg_layout [evR, evQ, evP, evX] 8) (windowStart 8)
        (windowEnd 8) ((get_four_week_range 8).getD 0 []) ≠
      maxCliqueInRow (generate_svg_layout [evR, evQ, evP, evX] 8) (windowStart 8)
        (windowEnd 8) ((get_four_week_range 8).getD 0 []) := by
  decide

/-- C2 amended: the lane count of a row (one plus the maximum position among
events intersecting it) is an upper bound for the maximum number of events
simultaneously overlapping at any single date of the row; equality can fail
because events are placed in input order without sorting. -/
theorem claim_C2_amended (events : List Event) (today : Int) (row : List Int) :
    maxCliqueInRow (generate_svg_layout events today) (windowStart today)
        (windowEnd today) row ≤
      lanesInRow (generate_svg_layout events today) (windowStart today)
        (windowEnd today) row := by
  rw [maxCliqueInRow]
  apply foldl_max_le 0 (Nat.zero_le _)
  intro x hx
  rcases List.mem_map.mp hx with ⟨d, hd, rfl⟩
  exact cliqueAt_le_lanesInRow
    (calculate_event_layout_inv events (get_four_week_range today)) hd

/-! ## Claim C4: processing order and first-fit -/

/-- C4 fails on the code: no sorting happens.  With input order X=[3,5],
Y=[1,4], the code assigns X position 0 (X is processed first), while first-fit
over the claimed `(visibleStart, visibleEnd)` sorted order of the first row
assigns X lane 1 (Y, starting earlier, is placed first). -/
theorem claim_C4_counterexample :
    (((generate_svg_layout [evX, evY] 8).positions).find?
        (fun ep => decide (ep.1 = evX))).map Prod.snd = some 0 ∧
    ((specRowLayout [evX, evY] 1 7).find?
        (fun sp => decide (sp.ev = evX))).map SpecSpan.lane = some 1 ∧
    (((generate_svg_layout [evX, evY] 8).positions).find?
        (fun ep => decide (ep.1 = evX))).map Prod.snd ≠
      ((specRowLayout [evX, evY] 1 7).find?
        (fun sp => decide (sp.ev = evX))).map SpecSpan.lane := by
  decide

/-- C4 amended: the engine performs no sort and no per-row pass.  Events are
processed in their stored (post-dedup input) order, and each receives the
least window-global position that does not conflict with any earlier-placed
event sharing one of its covered window dates — first-fit over the unsorted
input order. -/
theorem claim_C4_amended (events : List Event) (today : Int) :
    (generate_svg_layout events today).positions =
      firstFitList (windowStart today) (windowEnd today)
        (get_events_for_date_range events (windowStart today) (windowEnd today)) :=
  calculate_event_layout_positions events (get_four_week_range today)

/-! ## Claim C3: error handling of malformed records -/

/-- C3 fails on the code: Scenario 6's batch of five valid records and one
record with an unparseable start date loads zero events, not five — the
`ValueError` is caught by the `except` clause outside the record loop,
discarding the whole batch. -/
theorem claim_C3_counterexample :
    load_events_from_json badBatch = [] ∧
    (load_events_from_json badBatch).length ≠ 5 := by
  decide

/-- C3 amended: a record failing the field-presence guard is skipped on its
own — when every present record parses, exactly the parsed records are
loaded (after deduplication) — but a record whose start or end timestamp
fails to parse silently discards the whole batch: the loader returns with no
events.  In neither case does an exception escape to the caller. -/
theorem claim_C3_amended (data : List RawRecord) :
    ((∀ r ∈ data, fieldsPresent r = true → parsesOk r = true) →
      load_events_from_json data = remove_duplicate_events (parsedEvents data)) ∧
    ((∃ r ∈ data, fieldsPresent r = true ∧ parsesOk r = false) →
      load_events_from_json data = []) := by
  constructor
  · intro h
    rw [load_events_from_json, loadRaw_ok data h]
  · intro h
    rw [load_events_from_json, loadRaw_fail data h]

/-- Witness for C3: the all-valid batch loads its five parsed records; the
batch with one unparseable record loads nothing. -/
theorem claim_C3_witness :
    load_events_from_json goodBatch =
      remove_duplicate_events (parsedEvents goodBatch) ∧
    load_events_from_json badBatch = [] :=
  ⟨(claim_C3_amended goodBatch).1 (by decide),
   (claim_C3_amended badBatch).2 ⟨recBadStart, by decide, by decide, by decide⟩⟩

/-! ## Claim C5: inverted ranges are not repaired -/

/-- C5 fails on the code: the loader never swaps inverted ranges.  The record
running 2024-01-20 → 2024-01-05 is loaded with `end_date < start_date`. -/
theorem claim_C5_counterexample :
    ∃ e ∈ load_events_from_json [invRec], e.end_date < e.start_date := by
  decide

/-- C5 amended: the loader stores the parsed dates exactly as parsed — no
swap, no repair — so `start_date ≤ end_date` is not guaranteed; every loaded
event's fields come verbatim from some record of the batch. -/
theorem claim_C5_amended (data : List RawRecord) (e : Event)
    (h : e ∈ load_events_from_json data) :
    ∃ r ∈ data, fieldsPresent r = true ∧
      parse_ts (r.rawStart.getD "") = some e.start_date ∧
      parse_ts (r.rawEnd.getD "") = some e.end_date ∧
      r.rawName.getD "" = e.member ∧ r.rawTitle.getD "" = e.description := by
  rw [load_events_from_json] at h
  cases hlr : loadRaw data with
  | none => rw [hlr] at h; cases h
  | some raws =>
    rw [hlr] at h
    exact loadRaw_mem data raws hlr e (mem_remove_duplicate h)

/-- Witness for C5: the inverted record is loaded verbatim (start 2024-01-20,
end 2024-01-05). -/
theorem claim_C5_witness :
    ∃ r ∈ [invRec], fieldsPresent r = true ∧
      parse_ts (r.rawStart.getD "") = some (toOrdinal 2024 1 20) ∧
      parse_ts (r.rawEnd.getD "") = some (toOrdinal 2024 1 5) ∧
      r.rawName.getD "" = "m" ∧ r.rawTitle.getD "" = "trip" :=
  claim_C5_amended [invRec]
    ⟨"m", "trip", toOrdinal 2024 1 20, toOrdinal 2024 1 5⟩ (by decide)

/-! ## Claim C6: window clipping -/

/-- C6 fails on the code: stored event dates are never clipped to the window.
The record 2024-01-01 → 2024-01-15, laid out for reference date 2024-01-20
(whose window starts 2024-01-08), is placed while keeping a stored start date
strictly before the window start. -/
theorem claim_C6_counterexample :
    ∃ ep ∈ (generate_svg_layout (load_events_from_json [earlyRec])
        (toOrdinal 2024 1 20)).positions,
      ep.1.start_date < windowStart (toOrdinal 2024 1 20) := by
  decide

/-- C6 amended: events lying entirely outside the window are excluded from
the layout (every placed event overlaps the window), and the set of dates on
which an event is placed — not its stored dates — is clipped to the window
bounds. -/
theorem claim_C6_amended (events : List Event) (today : Int) (e : Event)
    (p : Nat) (d : Int)
    (h : (e, p) ∈ (generate_svg_layout events today).positions)
    (hd : d ∈ eventDates e (windowStart today) (windowEnd today)) :
    ¬(e.end_date < windowStart today ∨ e.start_date > windowEnd today) ∧
    windowStart today ≤ d ∧ d ≤ windowEnd today := by
  constructor
  · have hmap := layout_positions_map_fst events (get_four_week_range today)
    have he : e ∈ get_events_for_date_range events (windowStart today)
        (windowEnd today) := by
      rw [windowStart, windowEnd, ← hmap]
      exact List.mem_map_of_mem Prod.fst h
    rw [get_events_for_date_range] at he
    have hf := (List.mem_filter.mp he).2
    simp only [Bool.not_eq_true', Bool.or_eq_false_iff,
      decide_eq_false_iff_not] at hf
    rintro (hc | hc)
    · exact hf.1 hc
    · exact hf.2 hc
  · rw [eventDates, mem_dateRange] at hd
    omega

/-- Witness for C6: event A=[1,3] placed for reference date 8 overlaps the
window and is placed only on window dates (date 2 shown). -/
theorem claim_C6_witness :
    ¬(evA.end_date < windowStart 8 ∨ evA.start_date > windowEnd 8) ∧
    windowStart 8 ≤ 2 ∧ (2 : Int) ≤ windowEnd 8 :=
  claim_C6_amended [evA] 8 evA 0 2 (by decide) (by decide)

/-! ## Claim C7: accepted timestamp forms -/

/-- C7 fails on the code: the bare date form and the numeric-offset form are
rejected, because line 61 unconditionally strips the final character of the
raw string before `fromisoformat` ("2024-01-15" becomes "2024-01-1",
"…+09:00" becomes "…+09:0"). -/
theorem claim_C7_counterexample :
    parse_ts "2024-01-15" = none ∧
    parse_ts "2024-01-15T23:30:00+09:00" = none := by
  decide

/-- C7 amended: only timestamps whose final character is a disposable zone
letter survive the stripping: the trailing-`Z` form (with or without
fractional seconds) parses to its UTC calendar date, while an explicit
numeric offset and the bare date form raise and are not accepted. -/
theorem claim_C7_amended :
    parse_ts "2024-01-15T09:30:00Z" = some (toOrdinal 2024 1 15) ∧
    parse_ts "2024-01-15T09:30:00.123456Z" = some (toOrdinal 2024 1 15) ∧
    parse_ts "2024-01-15T23:30:00+09:00" = none ∧
    parse_ts "2024-01-15" = none := by
  decide

/-! ## Claim C8: deduplication -/

/-- C8: deduplication collapses records with identical
(owner, start date, end date) keys — the loaded list carries pairwise
distinct keys — and for every key the record kept is the last-seen record of
the batch with that key. -/
theorem claim_C8 (l : List Event) (k : EventKey) :
    (remove_duplicate_events l).Pairwise (fun a b => eventKey a ≠ eventKey b) ∧
    (remove_duplicate_events l).find? (fun e => decide (eventKey e = k)) =
      lastWithKey l k :=
  ⟨remove_duplicate_pairwise l, remove_duplicate_find? l k⟩

end Calendar
